import Mathlib

/-!
A verification development for the TeachMeRustOS starter kernel
(examples/002-starter).  The kernel consists of three drivers — a serial
port with CRLF translation (serial.rs), an 80×25 VGA text-mode writer
with scrolling (vga_buffer.rs), and a framebuffer rectangle fill done
inline in the entry point (main.rs) — plus the boot-time dispatch between
the framebuffer and text-mode display paths and the panic handler.

Bytes are modelled as `Nat` (the Rust code never exercises `u8` overflow:
every byte written comes from an input byte or a literal below 256), the
VGA cell grid as a total function `Nat → Nat → ScreenChar` updated through
`writeCell` exactly where the Rust code performs a volatile store, and the
framebuffer as a `List Nat` updated with `List.set` exactly where the Rust
code assigns a buffer element.

The file is laid out as definitions first (serial driver, VGA writer,
framebuffer painter, entry point, panic handler), then all theorems.
-/

set_option maxRecDepth 40000

namespace TMRos

/-- The ASCII byte sequence of a string literal (all kernel log strings are
ASCII, so `Char.toNat` is the byte value). -/
def ascii (s : String) : List Nat := s.data.map Char.toNat

/-! ### Serial driver — src/examples/002-starter/kernel/src/serial.rs

`SerialPort::write_byte` busy-waits on the line-status register and then
writes the byte to the data port; at the level of the transmitted byte
stream it appends one byte.  `SerialPort::write_str` iterates over the
input bytes, transmitting a carriage return (0x0D) before every line feed
(0x0A) and then the byte itself.  We model the observable transmitted
byte sequence. -/

/-- The bytes transmitted for one input byte of `SerialPort::write_str`:
the loop body sends 0x0D first when the byte is a line feed (0x0A), then
sends the byte itself. -/
def crlfBytes (b : Nat) : List Nat := if b = 10 then [13, b] else [b]

/-- Transmitted byte sequence of `SerialPort::write_str`: the per-byte
loop concatenates the bytes sent for each input byte in order. -/
def serial_write_str (s : List Nat) : List Nat := s.flatMap crlfBytes

/-- Transmitted byte sequence of `serial::println`: `write_str(s)`
followed by `write_str("\n")`. -/
def println_bytes (s : List Nat) : List Nat :=
  serial_write_str s ++ serial_write_str (ascii "\n")

/-! ### VGA text-mode writer — src/examples/002-starter/kernel/src/vga_buffer.rs

The 80×25 grid of `ScreenChar` cells at 0xb8000 is modelled as a total
function `Nat → Nat → ScreenChar`; the Rust code only ever indexes rows
below `BUFFER_HEIGHT` and columns below `BUFFER_WIDTH` (claim C9 makes
the in-bounds indices explicit).  Each volatile cell store becomes one
`writeCell`; the row-copy and row-clear loops become left folds over the
same index ranges the Rust `for` loops iterate, reading from the
accumulated grid exactly as the loop bodies read the current buffer. -/

def BUFFER_WIDTH : Nat := 80
def BUFFER_HEIGHT : Nat := 25

/-- One VGA cell: an ASCII byte plus a color byte (`ScreenChar`). -/
structure ScreenChar where
  ascii_character : Nat
  color_code : Nat
deriving DecidableEq, Repr

/-- The cell grid. -/
def VgaGrid : Type := Nat → Nat → ScreenChar

/-- One volatile store into the cell grid. -/
def writeCell (b : VgaGrid) (r c : Nat) (v : ScreenChar) : VgaGrid :=
  fun r' c' => if r' = r ∧ c' = c then v else b r' c'

/-- `Writer`: cursor column, current color and the bound cell grid. -/
structure Writer where
  column_position : Nat
  color_code : Nat
  buffer : VgaGrid

/-- The row-copy loops of `Writer::new_line`: for each row from 1 to
`BUFFER_HEIGHT - 1` and each column, read the cell at `(row, col)` from
the current buffer and store it at `(row - 1, col)`. -/
def scrollRows (b : VgaGrid) : VgaGrid :=
  (List.range' 1 (BUFFER_HEIGHT - 1)).foldl
    (fun acc row =>
      (List.range BUFFER_WIDTH).foldl
        (fun b2 col => writeCell b2 (row - 1) col (b2 row col)) acc)
    b

/-- The column loop of `Writer::clear_row`: store a blank cell (space,
current color) at every column of `row`. -/
def clearRowBuf (color row : Nat) (b : VgaGrid) : VgaGrid :=
  (List.range BUFFER_WIDTH).foldl
    (fun b2 col => writeCell b2 row col ⟨32, color⟩) b

/-- `Writer::clear_row`. -/
def Writer.clear_row (w : Writer) (row : Nat) : Writer :=
  { w with buffer := clearRowBuf w.color_code row w.buffer }

/-- `Writer::new_line`: shift every row up by one, clear the bottom row,
reset the column to zero. -/
def Writer.new_line (w : Writer) : Writer :=
  let w1 : Writer := { w with buffer := scrollRows w.buffer }
  let w2 := w1.clear_row (BUFFER_HEIGHT - 1)
  { w2 with column_position := 0 }

/-- The store step of `Writer::write_byte`: put the byte with the
current color at `(BUFFER_HEIGHT - 1, column_position)` and advance the
column by one. -/
def Writer.store (w : Writer) (byte : Nat) : Writer :=
  { column_position := w.column_position + 1,
    color_code := w.color_code,
    buffer :=
      writeCell w.buffer (BUFFER_HEIGHT - 1) w.column_position
        ⟨byte, w.color_code⟩ }

/-- `Writer::write_byte`: a line feed scrolls; any other byte scrolls
first when the column has reached the width, then is stored at the
bottom row. -/
def Writer.write_byte (w : Writer) (byte : Nat) : Writer :=
  if byte = 10 then w.new_line
  else (if BUFFER_WIDTH ≤ w.column_position then w.new_line else w).store byte

/-- `Writer::write_str` (the `core::fmt::Write` impl): write every byte
of the input in order. -/
def Writer.write_str (w : Writer) (s : List Nat) : Writer :=
  s.foldl Writer.write_byte w

/-- `vga_buffer::printk`: locks the lazily created writer and calls
`write_str` on it. -/
def printk (w : Writer) (s : List Nat) : Writer := w.write_str s

/-- `vga_buffer::clear_screen`: clear every row, then reset the column
to zero. -/
def clear_screen (w : Writer) : Writer :=
  let w1 := (List.range BUFFER_HEIGHT).foldl Writer.clear_row w
  { w1 with column_position := 0 }

/-- The writer created on first use by `vga_buffer::writer()`: column 0,
color 0x07 (light gray on black).  The cell contents of video memory at
boot are hardware-defined; the model picks an arbitrary fixed fill. -/
def boot_writer : Writer :=
  { column_position := 0, color_code := 0x07, buffer := fun _ _ => ⟨0, 0⟩ }

/-- Number of scrolls (`new_line` entries) performed by one
`write_byte` call: one for a line feed, one when the column has reached
the width, zero otherwise.  Instrumentation over the same condition
`write_byte` branches on. -/
def Writer.write_byte_scrolls (w : Writer) (b : Nat) : Nat :=
  if b = 10 then 1 else if BUFFER_WIDTH ≤ w.column_position then 1 else 0

/-- One instrumented `write_byte` step: the new writer plus the running
scroll count. -/
def writeStep (p : Writer × Nat) (b : Nat) : Writer × Nat :=
  (p.1.write_byte b, p.2 + p.1.write_byte_scrolls b)

/-- Total number of scrolls performed while writing a string. -/
def Writer.write_str_scrolls (w : Writer) (s : List Nat) : Nat :=
  (s.foldl writeStep (w, 0)).2

/-! ### Framebuffer painter — src/examples/002-starter/kernel/src/main.rs

`kernel_main` fills a rectangle pixel by pixel: `w = info.width.min(200)`,
`h = info.height.min(100)`, and for each `y < h`, `x < w` (y outer, x
inner) it computes `i = (y*stride + x)*bpp` and, only when
`i + (bpp-1) < buf.len()`, assigns `buf[i] = 0xFF` and, for `bpp` above
1/2/3, `buf[i+1] = 0x80`, `buf[i+2] = 0`, `buf[i+3] = 0`.  The model is
parameterized by the requested rectangle; the kernel requests 200×100. -/

/-- The framebuffer descriptor fields used by `kernel_main`
(`bootloader_api::info::FrameBufferInfo`). -/
structure FrameBufferInfo where
  width : Nat
  height : Nat
  bytes_per_pixel : Nat
  stride : Nat
deriving DecidableEq, Repr

/-- The guarded per-pixel store sequence of the fill loop body. -/
def paintPixel (bpp i : Nat) (buf : List Nat) : List Nat :=
  if i + (bpp - 1) < buf.length then
    let b1 := buf.set i 0xFF
    let b2 := if 1 < bpp then b1.set (i + 1) 0x80 else b1
    let b3 := if 2 < bpp then b2.set (i + 2) 0x00 else b2
    if 3 < bpp then b3.set (i + 3) 0x00 else b3
  else buf

/-- The pixel coordinates visited by the two nested fill loops, in loop
order: `y` outer over `0..h`, `x` inner over `0..w`. -/
def rectPixels (h w : Nat) : List (Nat × Nat) :=
  (List.range h).flatMap (fun y => (List.range w).map (fun x => (y, x)))

/-- Byte offset of a pixel, as computed in the loop body. -/
def pixOffset (stride bpp : Nat) (p : Nat × Nat) : Nat :=
  (p.1 * stride + p.2) * bpp

/-- Run the fill-loop body over a list of pixel coordinates. -/
def fillPixels (bpp stride : Nat) (ps : List (Nat × Nat)) (buf : List Nat) :
    List Nat :=
  ps.foldl (fun b p => paintPixel bpp (pixOffset stride bpp p) b) buf

/-- The framebuffer fill of `kernel_main`, with the requested rectangle
as a parameter: effective width/height are the minima of the descriptor
dimensions and the request. -/
def fill_rect (info : FrameBufferInfo) (req_w req_h : Nat) (buf : List Nat) :
    List Nat :=
  fillPixels info.bytes_per_pixel info.stride
    (rectPixels (min info.height req_h) (min info.width req_w)) buf

/-! ### Entry point and panic handler — src/examples/002-starter/kernel/src/main.rs -/

/-- The `BootInfo` fields used by `kernel_main`: an optional framebuffer,
carrying its descriptor and byte buffer. -/
structure BootInfo where
  framebuffer : Option (FrameBufferInfo × List Nat)

/-- Observable driver invocations of the entry point, in program order. -/
inductive Ev where
  | serialLine (s : List Nat)
  | vgaClear
  | vgaPrint (s : List Nat)
  | fbDraw
deriving DecidableEq, Repr

/-- Whether an event is a Text-Mode Video Driver invocation. -/
def Ev.isVga : Ev → Bool
  | vgaClear => true
  | vgaPrint _ => true
  | _ => false

/-- The greeting written on the VGA fallback path. -/
def greeting : List Nat := ascii "Hello from a modern Rust kernel (VGA text)!\n"

/-- `kernel_main` up to the terminal `hlt` loop: serial init plus entry
log; then either the framebuffer branch (log, fill, log) or the VGA
branch (log, `clear_screen`, `printk` of the greeting); then the idle-log.
Returns the event trace, the resulting VGA writer state, and the
resulting framebuffer contents (when one is present). -/
def kernel_main (boot : BootInfo) (w : Writer) :
    List Ev × Writer × Option (List Nat) :=
  match boot.framebuffer with
  | some (info, buf) =>
    ([Ev.serialLine (ascii "kernel: entered kernel_main"),
      Ev.serialLine (ascii "kernel: framebuffer present -> skip VGA writes"),
      Ev.fbDraw,
      Ev.serialLine (ascii "kernel: drew rectangle"),
      Ev.serialLine (ascii "kernel: hlt loop")],
     w, some (fill_rect info 200 100 buf))
  | none =>
    ([Ev.serialLine (ascii "kernel: entered kernel_main"),
      Ev.serialLine (ascii "kernel: no framebuffer -> using VGA text"),
      Ev.vgaClear,
      Ev.vgaPrint greeting,
      Ev.serialLine (ascii "kernel: hlt loop")],
     printk (clear_screen w) greeting, none)

/-- Serial bytes emitted by the panic handler before it enters the halt
loop: `println("PANIC")`, then, when the panic payload downcasts to a
string (modelled as `some msg`), `println` of that message.  The handler
then halts, so this is the complete output of the run. -/
def panic_bytes (msg : Option (List Nat)) : List Nat :=
  println_bytes (ascii "PANIC") ++
    (match msg with
     | some s => println_bytes s
     | none => [])

/-! ## Theorems -/

/-! ### Serial driver -/

theorem serial_write_str_cons (b : Nat) (s : List Nat) :
    serial_write_str (b :: s) = crlfBytes b ++ serial_write_str s := by
  simp [serial_write_str]

theorem serial_write_str_sublist (s : List Nat) :
    List.Sublist s (serial_write_str s) := by
  induction s with
  | nil => simp [serial_write_str]
  | cons b t ih =>
    rw [serial_write_str_cons]
    unfold crlfBytes
    by_cases hb : b = 10
    · simp only [hb, if_pos rfl]
      exact List.Sublist.cons 13 (List.Sublist.cons₂ 10 ih)
    · simp only [if_neg hb]
      exact List.Sublist.cons₂ b ih

theorem serial_write_str_lf_preceded (s : List Nat) :
    ∀ i, (serial_write_str s)[i]? = some 10 →
      1 ≤ i ∧ (serial_write_str s)[i - 1]? = some 13 := by
  induction s with
  | nil => intro i h; simp [serial_write_str] at h
  | cons b t ih =>
    intro i h
    rw [serial_write_str_cons] at h ⊢
    by_cases hb : b = 10
    · subst hb
      have hc : crlfBytes 10 = [13, 10] := rfl
      rw [hc] at h ⊢
      match i with
      | 0 => simp at h
      | 1 => simp
      | (n + 2) =>
        simp only [List.cons_append, List.getElem?_cons_succ] at h
        obtain ⟨h1, h2⟩ := ih n h
        refine ⟨by omega, ?_⟩
        have hn : n + 2 - 1 = (n - 1) + 1 + 1 := by omega
        rw [hn]
        simpa using h2
    · have hc : crlfBytes b = [b] := by rw [crlfBytes, if_neg hb]
      rw [hc] at h ⊢
      match i with
      | 0 =>
        simp only [List.singleton_append, List.getElem?_cons_zero] at h
        exact absurd (Option.some_injective _ h) hb
      | (n + 1) =>
        simp only [List.singleton_append, List.getElem?_cons_succ] at h
        obtain ⟨h1, h2⟩ := ih n h
        refine ⟨by omega, ?_⟩
        have hn : n + 1 - 1 = (n - 1) + 1 := by omega
        rw [hn]
        simpa using h2

theorem serial_write_str_no_lf (s : List Nat) (h : ∀ b ∈ s, b ≠ 10) :
    serial_write_str s = s := by
  induction s with
  | nil => simp [serial_write_str]
  | cons b t ih =>
    rw [serial_write_str_cons]
    have hb : b ≠ 10 := h b (List.mem_cons_self b t)
    rw [crlfBytes, if_neg hb, ih fun x hx => h x (List.mem_cons_of_mem b hx)]
    rfl

/-- **C3.** The serial driver transmits every input byte in order (the
input is a subsequence of the transmitted stream), every transmitted line
feed is immediately preceded by a transmitted carriage return, bytes other
than line feeds are passed through unchanged, and `write_str("A\n")`
transmits exactly [0x41, 0x0D, 0x0A]. -/
theorem claim_C3 :
    (∀ s : List Nat, List.Sublist s (serial_write_str s)) ∧
    (∀ s : List Nat, ∀ i, (serial_write_str s)[i]? = some 10 →
      1 ≤ i ∧ (serial_write_str s)[i - 1]? = some 13) ∧
    (∀ s : List Nat, (∀ b ∈ s, b ≠ 10) → serial_write_str s = s) ∧
    serial_write_str (ascii "A\n") = [0x41, 0x0D, 0x0A] := by
  refine ⟨serial_write_str_sublist, serial_write_str_lf_preceded,
    serial_write_str_no_lf, ?_⟩
  decide

/-- **C10.** Carriage-return insertion is unconditional on context: a
carriage return is transmitted before every line feed no matter what
precedes it in the input, so `write_str("\r\n")` transmits
[0x0D, 0x0D, 0x0A] (carriage-return doubling). -/
theorem claim_C10 :
    (∀ s t : List Nat,
      serial_write_str (s ++ 10 :: t) =
        serial_write_str s ++ 13 :: 10 :: serial_write_str t) ∧
    serial_write_str (ascii "\r\n") = [0x0D, 0x0D, 0x0A] := by
  constructor
  · intro s t
    simp [serial_write_str, crlfBytes]
  · decide

/-! ### VGA writer: cell-level effect of one scroll -/

/-- The inner column loop of `scrollRows` copies the row `row` (which the
writes never touch, since they all target row `row - 1 ≠ row`) onto row
`row - 1`, column by column. -/
theorem scroll_cols_spec (row : Nat) (hrow : 1 ≤ row) (b : VgaGrid) (n : Nat) :
    (List.range n).foldl (fun b2 col => writeCell b2 (row - 1) col (b2 row col)) b
      = fun r c => if r = row - 1 ∧ c < n then b row c else b r c := by
  induction n with
  | zero => funext r c; simp [List.range_zero]
  | succ n ih =>
    rw [List.range_succ, List.foldl_append, ih]
    funext r c
    have hne : row ≠ row - 1 := by omega
    simp only [List.foldl_cons, List.foldl_nil, writeCell]
    by_cases h1 : r = row - 1 ∧ c = n
    · simp only [if_pos h1]
      rw [if_neg (by exact fun hh => hne hh.1)]
      rw [if_pos ⟨h1.1, by omega⟩]
      rw [h1.2]
    · rw [if_neg h1]
      by_cases h2 : r = row - 1 ∧ c < n
      · rw [if_pos h2, if_pos ⟨h2.1, by omega⟩]
      · rw [if_neg h2, if_neg (by
          intro hh
          rcases hh with ⟨hr, hc⟩
          rcases Nat.lt_succ_iff_lt_or_eq.mp hc with hlt | heq
          · exact h2 ⟨hr, hlt⟩
          · exact h1 ⟨hr, heq⟩)]

/-- The column loop of `clear_row` blanks the first `n` columns of `row`. -/
theorem clear_cols_spec (row : Nat) (v : ScreenChar) (b : VgaGrid) (n : Nat) :
    (List.range n).foldl (fun b2 col => writeCell b2 row col v) b
      = fun r c => if r = row ∧ c < n then v else b r c := by
  induction n with
  | zero => funext r c; simp [List.range_zero]
  | succ n ih =>
    rw [List.range_succ, List.foldl_append, ih]
    funext r c
    simp only [List.foldl_cons, List.foldl_nil, writeCell]
    by_cases h1 : r = row ∧ c = n
    · rw [if_pos h1, if_pos ⟨h1.1, by omega⟩]
    · rw [if_neg h1]
      by_cases h2 : r = row ∧ c < n
      · rw [if_pos h2, if_pos ⟨h2.1, by omega⟩]
      · rw [if_neg h2, if_neg (by
          intro hh
          rcases hh with ⟨hr, hc⟩
          rcases Nat.lt_succ_iff_lt_or_eq.mp hc with hlt | heq
          · exact h2 ⟨hr, hlt⟩
          · exact h1 ⟨hr, heq⟩)]

/-- The row loop of `scrollRows`, restricted to its first `k` iterations,
shifts rows `1..k` up by one within the 80 real columns. -/
theorem scrollRows_fold_spec (b : VgaGrid) (k : Nat) :
    (List.range' 1 k).foldl
      (fun acc row =>
        (List.range BUFFER_WIDTH).foldl
          (fun b2 col => writeCell b2 (row - 1) col (b2 row col)) acc)
      b
    = fun r c => if r + 1 ≤ k ∧ c < BUFFER_WIDTH then b (r + 1) c else b r c := by
  induction k with
  | zero => funext r c; simp
  | succ k ih =>
    have hconcat : List.range' 1 (k + 1) = List.range' 1 k ++ [1 + k] :=
      List.range'_1_concat 1 k
    rw [hconcat, List.foldl_append, ih, List.foldl_cons, List.foldl_nil]
    rw [scroll_cols_spec (1 + k) (by omega)]
    funext r c
    by_cases h1 : r = 1 + k - 1 ∧ c < BUFFER_WIDTH
    · rw [if_pos h1]
      have hk1 : ¬((1 + k) + 1 ≤ k ∧ c < BUFFER_WIDTH) := by omega
      rw [if_neg hk1, if_pos (by omega : r + 1 ≤ k + 1 ∧ c < BUFFER_WIDTH)]
      congr 1
      omega
    · rw [if_neg h1]
      by_cases h2 : r + 1 ≤ k ∧ c < BUFFER_WIDTH
      · rw [if_pos h2, if_pos (by omega : r + 1 ≤ k + 1 ∧ c < BUFFER_WIDTH)]
      · rw [if_neg h2, if_neg (by
          intro hh
          exact h1 ⟨by omega, hh.2⟩)]

/-- Net effect of `scrollRows` on one cell. -/
theorem scrollRows_spec (b : VgaGrid) (r c : Nat) :
    scrollRows b r c
      = if r + 1 ≤ BUFFER_HEIGHT - 1 ∧ c < BUFFER_WIDTH then b (r + 1) c
        else b r c := by
  rw [scrollRows, scrollRows_fold_spec]

/-- Net effect of `Writer::new_line` on one cell: the bottom row becomes
blank, every other real row takes the old contents of the row below it,
and cells outside the 25×80 grid (never indexed by the Rust code) keep
their model value. -/
theorem new_line_buffer (w : Writer) (r c : Nat) :
    (w.new_line).buffer r c
      = if r = BUFFER_HEIGHT - 1 ∧ c < BUFFER_WIDTH then ⟨32, w.color_code⟩
        else if r + 1 ≤ BUFFER_HEIGHT - 1 ∧ c < BUFFER_WIDTH then w.buffer (r + 1) c
        else w.buffer r c := by
  show clearRowBuf w.color_code (BUFFER_HEIGHT - 1) (scrollRows w.buffer) r c = _
  rw [clearRowBuf, clear_cols_spec]
  simp only [scrollRows_spec]

theorem new_line_column (w : Writer) : (w.new_line).column_position = 0 := rfl

theorem new_line_color (w : Writer) : (w.new_line).color_code = w.color_code := rfl

/-! ### VGA writer: write_byte / write_str bookkeeping -/

theorem store_column (w : Writer) (b : Nat) :
    (w.store b).column_position = w.column_position + 1 := rfl

theorem store_color (w : Writer) (b : Nat) :
    (w.store b).color_code = w.color_code := rfl

theorem store_buffer (w : Writer) (b : Nat) :
    (w.store b).buffer
      = writeCell w.buffer (BUFFER_HEIGHT - 1) w.column_position
          ⟨b, w.color_code⟩ := rfl

theorem write_byte_plain (w : Writer) (b : Nat) (hb : b ≠ 10)
    (hcol : ¬ BUFFER_WIDTH ≤ w.column_position) :
    w.write_byte b = w.store b := by
  simp only [Writer.write_byte, if_neg hb, if_neg hcol]

theorem write_byte_full (w : Writer) (b : Nat) (hb : b ≠ 10)
    (hcol : BUFFER_WIDTH ≤ w.column_position) :
    w.write_byte b = (w.new_line).store b := by
  simp only [Writer.write_byte, if_neg hb, if_pos hcol]

theorem write_str_nil (w : Writer) : w.write_str [] = w := rfl

theorem write_str_cons (w : Writer) (b : Nat) (t : List Nat) :
    w.write_str (b :: t) = (w.write_byte b).write_str t := rfl

theorem write_str_append (w : Writer) (s t : List Nat) :
    w.write_str (s ++ t) = (w.write_str s).write_str t := by
  simp [Writer.write_str]

theorem writeStep_foldl (s : List Nat) :
    ∀ (w : Writer) (n : Nat),
      s.foldl writeStep (w, n) = (w.write_str s, n + w.write_str_scrolls s) := by
  induction s with
  | nil =>
    intro w n
    simp [Writer.write_str, Writer.write_str_scrolls, writeStep]
  | cons b t ih =>
    intro w n
    have h1 : writeStep (w, n) b = (w.write_byte b, n + w.write_byte_scrolls b) := rfl
    rw [List.foldl_cons, h1, ih]
    have hscr : Writer.write_str_scrolls w (b :: t)
        = w.write_byte_scrolls b + (w.write_byte b).write_str_scrolls t := by
      show (List.foldl writeStep (writeStep (w, 0) b) t).2 = _
      have h0 : writeStep (w, 0) b = (w.write_byte b, 0 + w.write_byte_scrolls b) := rfl
      rw [h0, ih]
      omega
    rw [write_str_cons, hscr, Nat.add_assoc]

theorem write_str_scrolls_cons (w : Writer) (b : Nat) (t : List Nat) :
    w.write_str_scrolls (b :: t)
      = w.write_byte_scrolls b + (w.write_byte b).write_str_scrolls t := by
  show (List.foldl writeStep (writeStep (w, 0) b) t).2 = _
  have h0 : writeStep (w, 0) b = (w.write_byte b, 0 + w.write_byte_scrolls b) := rfl
  rw [h0, writeStep_foldl]
  omega

theorem write_str_scrolls_append (w : Writer) (s t : List Nat) :
    w.write_str_scrolls (s ++ t)
      = w.write_str_scrolls s + (w.write_str s).write_str_scrolls t := by
  rw [Writer.write_str_scrolls, List.foldl_append, writeStep_foldl,
    writeStep_foldl]
  show 0 + w.write_str_scrolls s + (w.write_str s).write_str_scrolls t = _
  omega

/-- Writing a line-feed-free string that fits in the remaining columns of
the bottom row: the column advances by the length, the color is
unchanged, no scroll occurs, the bytes land in consecutive bottom-row
cells with the current color, and every other cell is untouched. -/
theorem write_str_aligned (s : List Nat) :
    ∀ w : Writer, (∀ b ∈ s, b ≠ 10) →
    w.column_position + s.length ≤ BUFFER_WIDTH →
    (w.write_str s).column_position = w.column_position + s.length ∧
    (w.write_str s).color_code = w.color_code ∧
    w.write_str_scrolls s = 0 ∧
    (∀ i b, s[i]? = some b →
      (w.write_str s).buffer (BUFFER_HEIGHT - 1) (w.column_position + i)
        = ⟨b, w.color_code⟩) ∧
    (∀ r c, (r ≠ BUFFER_HEIGHT - 1 ∨ c < w.column_position ∨
        w.column_position + s.length ≤ c) →
      (w.write_str s).buffer r c = w.buffer r c) := by
  induction s with
  | nil =>
    intro w hnl hlen
    refine ⟨by simp [Writer.write_str], rfl, rfl, ?_, ?_⟩
    · intro i b h; simp at h
    · intro r c _; rfl
  | cons b t ih =>
    intro w hnl hlen
    have hb : b ≠ 10 := hnl b (List.mem_cons_self b t)
    simp only [List.length_cons] at hlen
    have hcol : ¬ BUFFER_WIDTH ≤ w.column_position := by omega
    have hwb : w.write_byte b = w.store b := write_byte_plain w b hb hcol
    have hnl' : ∀ x ∈ t, x ≠ 10 := fun x hx => hnl x (List.mem_cons_of_mem b hx)
    have hlen' : (w.store b).column_position + t.length ≤ BUFFER_WIDTH := by
      rw [store_column]; omega
    obtain ⟨ihcol, ihcolor, ihscr, ihpaint, ihkeep⟩ := ih (w.store b) hnl' hlen'
    have hstr : w.write_str (b :: t) = (w.store b).write_str t := by
      rw [write_str_cons, hwb]
    refine ⟨?_, ?_, ?_, ?_, ?_⟩
    · rw [hstr, ihcol, store_column, List.length_cons]; omega
    · rw [hstr, ihcolor, store_color]
    · rw [write_str_scrolls_cons, hwb]
      have hsb : w.write_byte_scrolls b = 0 := by
        rw [Writer.write_byte_scrolls, if_neg hb, if_neg hcol]
      rw [hsb, ihscr]
    · intro i b' hib
      rw [hstr]
      match i with
      | 0 =>
        simp only [List.getElem?_cons_zero] at hib
        have hbb : b' = b := (Option.some_injective _ hib).symm
        subst hbb
        rw [Nat.add_zero]
        have hkeep := ihkeep (BUFFER_HEIGHT - 1) w.column_position
          (Or.inr (Or.inl (by rw [store_column]; omega)))
        rw [hkeep, store_buffer, writeCell, if_pos ⟨rfl, rfl⟩]
      | (n + 1) =>
        simp only [List.getElem?_cons_succ] at hib
        have hp := ihpaint n b' hib
        rw [store_column, store_color] at hp
        have harith : w.column_position + (n + 1) = w.column_position + 1 + n := by
          omega
        rw [harith, hp]
    · intro r c hrc
      rw [hstr]
      have hkeep := ihkeep r c (by
        rw [store_column]
        rcases hrc with h | h | h
        · exact Or.inl h
        · exact Or.inr (Or.inl (by omega))
        · rw [List.length_cons] at h
          exact Or.inr (Or.inr (by omega)))
      rw [hkeep, store_buffer, writeCell, if_neg (by
        intro hh
        rcases hrc with h | h | h
        · exact h hh.1
        · omega
        · rw [List.length_cons] at h; omega)]

theorem write_byte_column_le (w : Writer) (b : Nat) :
    (w.write_byte b).column_position ≤ BUFFER_WIDTH := by
  rw [Writer.write_byte]
  by_cases hb : b = 10
  · rw [if_pos hb, new_line_column]; omega
  · rw [if_neg hb]
    by_cases hcol : BUFFER_WIDTH ≤ w.column_position
    · rw [if_pos hcol, store_column, new_line_column]
      show 0 + 1 ≤ BUFFER_WIDTH
      decide
    · rw [if_neg hcol, store_column]; omega

theorem write_str_column_le (s : List Nat) :
    ∀ w : Writer, w.column_position ≤ BUFFER_WIDTH →
      (w.write_str s).column_position ≤ BUFFER_WIDTH := by
  induction s with
  | nil => intro w h; exact h
  | cons b t ih =>
    intro w _
    rw [write_str_cons]
    exact ih (w.write_byte b) (write_byte_column_le w b)

/-! ### VGA writer: iterated scroll -/

theorem new_line_iter_color (n : Nat) (w : Writer) :
    ((Writer.new_line)^[n] w).color_code = w.color_code := by
  induction n with
  | zero => rfl
  | succ n ih =>
    rw [Function.iterate_succ_apply', new_line_color, ih]

theorem new_line_iter_buffer (n : Nat) :
    ∀ (w : Writer) (r c : Nat), c < BUFFER_WIDTH →
    ((Writer.new_line)^[n] w).buffer r c
      = if BUFFER_HEIGHT ≤ r + n ∧ r < BUFFER_HEIGHT then ⟨32, w.color_code⟩
        else if r + n < BUFFER_HEIGHT then w.buffer (r + n) c
        else w.buffer r c := by
  induction n with
  | zero =>
    intro w r c hc
    simp only [Function.iterate_zero_apply, Nat.add_zero]
    by_cases hr : r < BUFFER_HEIGHT
    · rw [if_neg (by omega), if_pos hr]
    · rw [if_neg (by omega), if_neg (by omega)]
  | succ n ih =>
    intro w r c hc
    rw [Function.iterate_succ_apply, ih (w.new_line) r c hc]
    rw [new_line_color, new_line_buffer, new_line_buffer]
    have hH : BUFFER_HEIGHT = 25 := rfl
    split_ifs <;> first
      | rfl
      | omega

/-! ### Claim C7: scrolling BUFFER_HEIGHT times blanks the screen -/

/-- **C7.** From any starting writer state, performing the scroll
operation (`Writer::new_line`) 25 = `BUFFER_HEIGHT` times in succession
leaves every cell of the 80×25 grid blank: a space character with the
current color. -/
theorem claim_C7 (w : Writer) (r c : Nat)
    (hr : r < BUFFER_HEIGHT) (hc : c < BUFFER_WIDTH) :
    ((Writer.new_line)^[BUFFER_HEIGHT] w).buffer r c = ⟨32, w.color_code⟩ := by
  rw [new_line_iter_buffer BUFFER_HEIGHT w r c hc,
    if_pos ⟨by omega, hr⟩]

theorem claim_C7_witness :
    ((Writer.new_line)^[BUFFER_HEIGHT] boot_writer).buffer 0 0
      = ⟨32, boot_writer.color_code⟩ :=
  claim_C7 boot_writer 0 0 (by decide) (by decide)

/-! ### Claim C1: the column invariant -/

/-- **C1 counterexample.** The claim "column_position < 80 immediately
after any write completes" fails: writing an 80-byte line from column 0
ends with `column_position = 80`. -/
theorem claim_C1_counterexample :
    ¬ ((boot_writer.write_str (List.replicate BUFFER_WIDTH 65)).column_position
        < BUFFER_WIDTH) := by
  decide

/-- **C1 (amended).** Immediately after any write operation the writer's
`column_position` lies in `[0, BUFFER_WIDTH]`: it is at most the buffer
width (it equals 80 exactly when a write fills the last column; the next
write scrolls before storing). -/
theorem claim_C1 (w : Writer) (b : Nat) (s : List Nat) :
    (w.write_byte b).column_position ≤ BUFFER_WIDTH ∧
    (w.column_position ≤ BUFFER_WIDTH →
      (w.write_str s).column_position ≤ BUFFER_WIDTH) :=
  ⟨write_byte_column_le w b, write_str_column_le s w⟩

theorem claim_C1_witness :
    (boot_writer.write_byte 65).column_position ≤ BUFFER_WIDTH ∧
    (boot_writer.write_str (ascii "hi")).column_position ≤ BUFFER_WIDTH :=
  ⟨(claim_C1 boot_writer 65 (ascii "hi")).1,
   (claim_C1 boot_writer 65 (ascii "hi")).2 (by decide)⟩

/-! ### Claim C5: short line-feed-free strings land on the bottom row -/

/-- **C5.** Writing a printable-ASCII string with no line feed and length
at most the buffer width, starting at the beginning of the line (the
state in which the writer is created), puts the bytes in the first
`len(S)` cells of the bottom row in order with the current color, and
leaves `column_position = len(S)`. -/
theorem claim_C5 (w : Writer) (s : List Nat)
    (hcol : w.column_position = 0)
    (hprint : ∀ b ∈ s, 32 ≤ b ∧ b ≤ 126)
    (hlen : s.length ≤ BUFFER_WIDTH) :
    (w.write_str s).column_position = s.length ∧
    (∀ i b, s[i]? = some b →
      (w.write_str s).buffer (BUFFER_HEIGHT - 1) i = ⟨b, w.color_code⟩) := by
  have hnl : ∀ b ∈ s, b ≠ 10 := by
    intro b hb
    have := hprint b hb
    omega
  obtain ⟨h1, _, _, h4, _⟩ := write_str_aligned s w hnl (by omega)
  refine ⟨by omega, ?_⟩
  intro i b hib
  have := h4 i b hib
  rwa [hcol, Nat.zero_add] at this

theorem claim_C5_witness :
    (boot_writer.write_str (ascii "Hi")).column_position = (ascii "Hi").length ∧
    (∀ i b, (ascii "Hi")[i]? = some b →
      (boot_writer.write_str (ascii "Hi")).buffer (BUFFER_HEIGHT - 1) i
        = ⟨b, boot_writer.color_code⟩) :=
  claim_C5 boot_writer (ascii "Hi") (by decide) (by decide) (by decide)

/-! ### Claim C6: overflowing strings scroll exactly once — when the
overflow is at most one extra line -/

/-- **C6 counterexample.** The claim quantifies over every line-feed-free
string whose length exceeds the width by `k` columns; for `k = 81`
(length 161) the write scrolls twice, not once: once at byte 81 and again
at byte 161. -/
theorem claim_C6_counterexample :
    (List.replicate 161 (65 : Nat)).length = BUFFER_WIDTH + 81 ∧
    (∀ b ∈ List.replicate 161 (65 : Nat), b ≠ 10) ∧
    ¬ (boot_writer.write_str_scrolls (List.replicate 161 65) = 1) := by
  refine ⟨by decide, by decide, ?_⟩
  decide

/-- **C6 (amended).** For a line-feed-free string whose length exceeds
the buffer width by `k` columns with `1 ≤ k ≤ 80`, written from the
start of the line: exactly one scroll occurs partway through the write,
and afterwards the remaining `k` bytes occupy columns `[0, k)` of the new
bottom row.  (For `k > 80` additional scrolls occur, so the bound on `k`
is necessary.) -/
theorem claim_C6 (w : Writer) (s : List Nat) (k : Nat)
    (hcol : w.column_position = 0)
    (hnl : ∀ b ∈ s, b ≠ 10)
    (hlen : s.length = BUFFER_WIDTH + k)
    (hk1 : 1 ≤ k) (hk80 : k ≤ BUFFER_WIDTH) :
    w.write_str_scrolls s = 1 ∧
    (∀ i b, s[BUFFER_WIDTH + i]? = some b →
      (w.write_str s).buffer (BUFFER_HEIGHT - 1) i = ⟨b, w.color_code⟩) := by
  have hsplit : s.take BUFFER_WIDTH ++ s.drop BUFFER_WIDTH = s :=
    List.take_append_drop BUFFER_WIDTH s
  have hlen1 : (s.take BUFFER_WIDTH).length = BUFFER_WIDTH := by
    rw [List.length_take]; omega
  have hlen2 : (s.drop BUFFER_WIDTH).length = k := by
    rw [List.length_drop]; omega
  obtain ⟨b, rest, hs2⟩ : ∃ b rest, s.drop BUFFER_WIDTH = b :: rest := by
    cases hd : s.drop BUFFER_WIDTH with
    | nil => rw [hd] at hlen2; simp at hlen2; omega
    | cons b rest => exact ⟨b, rest, rfl⟩
  have hrest : rest.length = k - 1 := by
    rw [hs2] at hlen2; simp at hlen2; omega
  have hmem1 : ∀ x ∈ s.take BUFFER_WIDTH, x ≠ 10 := by
    intro x hx
    exact hnl x (by rw [← hsplit]; exact List.mem_append_left _ hx)
  have hmem2 : ∀ x ∈ s.drop BUFFER_WIDTH, x ≠ 10 := by
    intro x hx
    exact hnl x (by rw [← hsplit]; exact List.mem_append_right _ hx)
  have hbnl : b ≠ 10 := hmem2 b (by rw [hs2]; exact List.mem_cons_self b rest)
  have hrestnl : ∀ x ∈ rest, x ≠ 10 := by
    intro x hx
    exact hmem2 x (by rw [hs2]; exact List.mem_cons_of_mem b hx)
  -- Phase 1: the first 80 bytes fill the bottom row without scrolling.
  obtain ⟨acol, acolor, ascr, _, _⟩ :=
    write_str_aligned (s.take BUFFER_WIDTH) w hmem1 (by omega)
  set w1 := w.write_str (s.take BUFFER_WIDTH) with hw1
  have hw1col : w1.column_position = BUFFER_WIDTH := by rw [acol]; omega
  -- Phase 2: byte 81 scrolls and lands at column 0.
  have hfull : BUFFER_WIDTH ≤ w1.column_position := by omega
  have hwb : w1.write_byte b = (w1.new_line).store b := write_byte_full w1 b hbnl hfull
  set w2 := (w1.new_line).store b with hw2
  have hw2col : w2.column_position = 1 := by
    rw [hw2, store_column, new_line_column]
  have hw2color : w2.color_code = w.color_code := by
    rw [hw2, store_color, new_line_color, acolor]
  -- Phase 3: the remaining k - 1 bytes stay on the (new) bottom row.
  obtain ⟨bcol, bcolor, bscr, bpaint, bkeep⟩ :=
    write_str_aligned rest w2 hrestnl (by omega)
  have hstr : w.write_str s = w2.write_str rest := by
    rw [← hsplit, write_str_append, hs2, write_str_cons, ← hw1, hwb]
  constructor
  · rw [← hsplit, write_str_scrolls_append, ascr, ← hw1, hs2,
      write_str_scrolls_cons, hwb]
    have hsb : w1.write_byte_scrolls b = 1 := by
      rw [Writer.write_byte_scrolls, if_neg hbnl, if_pos hfull]
    rw [hsb, bscr]
  · intro i b' hib
    have hib2 : (s.drop BUFFER_WIDTH)[i]? = some b' := by
      rw [← hsplit] at hib
      rwa [List.getElem?_append_right (by omega), hlen1,
        Nat.add_sub_cancel_left] at hib
    rw [hstr]
    rw [hs2] at hib2
    match i with
    | 0 =>
      simp only [List.getElem?_cons_zero] at hib2
      have hbb : b' = b := (Option.some_injective _ hib2).symm
      subst hbb
      have hkeep := bkeep (BUFFER_HEIGHT - 1) 0
        (Or.inr (Or.inl (by omega)))
      rw [hkeep, hw2, store_buffer, new_line_column, writeCell,
        if_pos ⟨rfl, rfl⟩, new_line_color, acolor]
    | (n + 1) =>
      simp only [List.getElem?_cons_succ] at hib2
      have hp := bpaint n b' hib2
      rw [hw2col, hw2color] at hp
      have harith : (1 : Nat) + n = n + 1 := by omega
      rwa [harith] at hp

theorem claim_C6_witness :
    boot_writer.write_str_scrolls (List.replicate 81 66) = 1 ∧
    (∀ i b, (List.replicate 81 (66 : Nat))[BUFFER_WIDTH + i]? = some b →
      (boot_writer.write_str (List.replicate 81 66)).buffer (BUFFER_HEIGHT - 1) i
        = ⟨b, boot_writer.color_code⟩) :=
  claim_C6 boot_writer (List.replicate 81 66) 1 (by decide) (by decide)
    (by decide) (by decide) (by decide)

/-! ### Claim C9: every buffer index used is in bounds -/

/-- **C9.** Every cell index the driver uses is in range: the character
store of `write_byte` targets the bottom row `BUFFER_HEIGHT - 1` at a
column strictly below `BUFFER_WIDTH` (after the conditional scroll, as in
the code); the scroll loops read rows `1..BUFFER_HEIGHT-1` and write the
row above, over columns `0..BUFFER_WIDTH-1`, all in range; and after the
public operations (`printk`, `clear_screen`) the column is at most the
width. -/
theorem claim_C9 (w : Writer) (b : Nat) (s : List Nat) :
    ((if BUFFER_WIDTH ≤ w.column_position then w.new_line else w).column_position
        < BUFFER_WIDTH) ∧
    BUFFER_HEIGHT - 1 < BUFFER_HEIGHT ∧
    (∀ row ∈ List.range' 1 (BUFFER_HEIGHT - 1),
      row < BUFFER_HEIGHT ∧ row - 1 < BUFFER_HEIGHT - 1) ∧
    (∀ col ∈ List.range BUFFER_WIDTH, col < BUFFER_WIDTH) ∧
    (w.column_position ≤ BUFFER_WIDTH →
      (printk w s).column_position ≤ BUFFER_WIDTH) ∧
    (clear_screen w).column_position = 0 := by
  refine ⟨?_, by decide, ?_, ?_, ?_, rfl⟩
  · by_cases hcol : BUFFER_WIDTH ≤ w.column_position
    · rw [if_pos hcol, new_line_column]; decide
    · rw [if_neg hcol]; omega
  · intro row hrow
    rw [List.mem_range'] at hrow
    obtain ⟨i, hi, hrow⟩ := hrow
    omega
  · intro col hcol
    rwa [List.mem_range] at hcol
  · intro hw
    exact write_str_column_le s w hw

theorem claim_C9_witness :
    ((if BUFFER_WIDTH ≤ boot_writer.column_position then boot_writer.new_line
        else boot_writer).column_position < BUFFER_WIDTH) ∧
    (printk boot_writer (ascii "ok")).column_position ≤ BUFFER_WIDTH :=
  ⟨(claim_C9 boot_writer 65 (ascii "ok")).1,
   (claim_C9 boot_writer 65 (ascii "ok")).2.2.2.2.1 (by decide)⟩

/-! ### Framebuffer painter -/

theorem paintPixel_length (bpp i : Nat) (buf : List Nat) :
    (paintPixel bpp i buf).length = buf.length := by
  simp only [paintPixel]
  split_ifs <;> simp [List.length_set]

theorem paintPixel_get_outside (bpp i j : Nat) (buf : List Nat)
    (hbpp : 1 ≤ bpp) (hj : j < i ∨ i + bpp ≤ j) :
    (paintPixel bpp i buf)[j]? = buf[j]? := by
  simp only [paintPixel]
  split_ifs <;> first
    | rfl
    | (simp only [List.getElem?_set, List.length_set]
       split_ifs <;> first | rfl | (exfalso; omega))

theorem paintPixel_get_base (bpp i : Nat) (buf : List Nat)
    (hbpp : 1 ≤ bpp) (hlen : i + bpp ≤ buf.length) :
    (paintPixel bpp i buf)[i]? = some 0xFF := by
  simp only [paintPixel]
  rw [if_pos (by omega)]
  split_ifs <;>
    (simp only [List.getElem?_set, List.length_set]
     split_ifs <;> first | rfl | (exfalso; omega))

theorem paintPixel_keep (bpp i : Nat) (buf : List Nat)
    (hbpp : 1 ≤ bpp) (h : buf[i]? = some 0xFF) :
    (paintPixel bpp i buf)[i]? = some 0xFF := by
  obtain ⟨hi, _⟩ := List.getElem?_eq_some_iff.mp h
  simp only [paintPixel]
  split_ifs <;> first
    | exact h
    | (simp only [List.getElem?_set, List.length_set]
       split_ifs <;> first | rfl | (exfalso; omega))

theorem fillPixels_length (bpp stride : Nat) (ps : List (Nat × Nat)) :
    ∀ buf : List Nat, (fillPixels bpp stride ps buf).length = buf.length := by
  induction ps with
  | nil => intro buf; rfl
  | cons p ps ih =>
    intro buf
    show (fillPixels bpp stride ps
      (paintPixel bpp (pixOffset stride bpp p) buf)).length = _
    rw [ih, paintPixel_length]

theorem fillPixels_get_outside (bpp stride : Nat) (hbpp : 1 ≤ bpp)
    (ps : List (Nat × Nat)) :
    ∀ (buf : List Nat) (j : Nat),
      (∀ p ∈ ps, j < pixOffset stride bpp p ∨
        pixOffset stride bpp p + bpp ≤ j) →
      (fillPixels bpp stride ps buf)[j]? = buf[j]? := by
  induction ps with
  | nil => intro buf j _; rfl
  | cons p ps ih =>
    intro buf j hdisj
    show (fillPixels bpp stride ps
      (paintPixel bpp (pixOffset stride bpp p) buf))[j]? = _
    rw [ih _ j (fun q hq => hdisj q (List.mem_cons_of_mem p hq)),
      paintPixel_get_outside _ _ _ _ hbpp (hdisj p (List.mem_cons_self p ps))]

theorem fillPixels_keep (bpp stride : Nat) (hbpp : 1 ≤ bpp) (i0 : Nat)
    (ps : List (Nat × Nat)) :
    ∀ buf : List Nat, buf[i0]? = some 0xFF →
      (∀ p ∈ ps, pixOffset stride bpp p = i0 ∨
        i0 < pixOffset stride bpp p ∨ pixOffset stride bpp p + bpp ≤ i0) →
      (fillPixels bpp stride ps buf)[i0]? = some 0xFF := by
  induction ps with
  | nil => intro buf h _; exact h
  | cons p ps ih =>
    intro buf h hcond
    show (fillPixels bpp stride ps
      (paintPixel bpp (pixOffset stride bpp p) buf))[i0]? = _
    apply ih _ ?_ (fun q hq => hcond q (List.mem_cons_of_mem p hq))
    rcases hcond p (List.mem_cons_self p ps) with heq | hdisj
    · rw [heq]
      exact paintPixel_keep bpp i0 buf hbpp h
    · rw [paintPixel_get_outside _ _ _ _ hbpp hdisj]
      exact h

theorem fillPixels_paints (bpp stride : Nat) (hbpp : 1 ≤ bpp) (p0 : Nat × Nat)
    (ps : List (Nat × Nat)) :
    ∀ buf : List Nat, p0 ∈ ps →
      pixOffset stride bpp p0 + bpp ≤ buf.length →
      (∀ p ∈ ps, pixOffset stride bpp p = pixOffset stride bpp p0 ∨
        pixOffset stride bpp p0 < pixOffset stride bpp p ∨
        pixOffset stride bpp p + bpp ≤ pixOffset stride bpp p0) →
      (fillPixels bpp stride ps buf)[pixOffset stride bpp p0]? = some 0xFF := by
  induction ps with
  | nil => intro buf hmem; exact absurd hmem (List.not_mem_nil p0)
  | cons p ps ih =>
    intro buf hmem hlen hcond
    show (fillPixels bpp stride ps
      (paintPixel bpp (pixOffset stride bpp p) buf))[pixOffset stride bpp p0]? = _
    rcases hcond p (List.mem_cons_self p ps) with heq | hdisj
    · apply fillPixels_keep bpp stride hbpp _ ps
      · rw [heq]
        exact paintPixel_get_base bpp _ buf hbpp hlen
      · exact fun q hq => hcond q (List.mem_cons_of_mem p hq)
    · have hp0 : p0 ∈ ps := by
        rcases List.mem_cons.mp hmem with hpe | hps
        · exfalso
          rw [← hpe] at hdisj
          omega
        · exact hps
      apply ih _ hp0 (by rw [paintPixel_length]; exact hlen)
        (fun q hq => hcond q (List.mem_cons_of_mem p hq))

theorem mem_rectPixels (h w : Nat) (p : Nat × Nat) :
    p ∈ rectPixels h w ↔ p.1 < h ∧ p.2 < w := by
  obtain ⟨y, x⟩ := p
  simp only [rectPixels, List.mem_flatMap, List.mem_map, List.mem_range,
    Prod.mk.injEq]
  constructor
  · rintro ⟨a, ha, x', hx', hy, hx⟩
    subst hy; subst hx
    exact ⟨ha, hx'⟩
  · rintro ⟨hy, hx⟩
    exact ⟨y, hy, x, hx, rfl, rfl⟩

theorem length_rectPixels (h w : Nat) : (rectPixels h w).length = h * w := by
  induction h with
  | zero => simp [rectPixels]
  | succ h ih =>
    have hstep : rectPixels (h + 1) w
        = rectPixels h w ++ (List.range w).map (fun x => (h, x)) := by
      rw [rectPixels, rectPixels, List.range_succ, List.flatMap_append]
      simp
    rw [hstep, List.length_append, ih, List.length_map, List.length_range,
      Nat.succ_mul]

theorem pix_lex_le (stride bpp we y x y0 x0 : Nat) (hx : x < we)
    (hsw : we ≤ stride) (hlex : y < y0 ∨ (y = y0 ∧ x < x0)) :
    (y * stride + x + 1) * bpp ≤ (y0 * stride + x0) * bpp := by
  apply Nat.mul_le_mul _ (Nat.le_refl bpp)
  rcases hlex with hy | ⟨hy, hxx⟩
  · have h1 : (y + 1) * stride = y * stride + stride := by ring
    have h2 : (y + 1) * stride ≤ y0 * stride := Nat.mul_le_mul hy (Nat.le_refl stride)
    omega
  · subst hy; omega

theorem pixOffset_rect_cases (stride bpp we : Nat) (hbpp : 1 ≤ bpp)
    (hsw : we ≤ stride) (p p0 : Nat × Nat) (hp : p.2 < we) (hp0 : p0.2 < we) :
    pixOffset stride bpp p = pixOffset stride bpp p0 ∨
    pixOffset stride bpp p0 < pixOffset stride bpp p ∨
    pixOffset stride bpp p + bpp ≤ pixOffset stride bpp p0 := by
  obtain ⟨y, x⟩ := p
  obtain ⟨y0, x0⟩ := p0
  simp only [pixOffset] at hp hp0 ⊢
  rcases Nat.lt_trichotomy y y0 with hy | hy | hy
  · right; right
    have := pix_lex_le stride bpp we y x y0 x0 hp hsw (Or.inl hy)
    have hsm : (y * stride + x + 1) * bpp = (y * stride + x) * bpp + bpp :=
      Nat.succ_mul _ _
    omega
  · subst hy
    rcases Nat.lt_trichotomy x x0 with hx | hx | hx
    · right; right
      have := pix_lex_le stride bpp we y x y x0 hp hsw (Or.inr ⟨rfl, hx⟩)
      have hsm : (y * stride + x + 1) * bpp = (y * stride + x) * bpp + bpp :=
        Nat.succ_mul _ _
      omega
    · left; rw [hx]
    · right; left
      have := pix_lex_le stride bpp we y x0 y x hp0 hsw (Or.inr ⟨rfl, hx⟩)
      have hsm : (y * stride + x0 + 1) * bpp = (y * stride + x0) * bpp + bpp :=
        Nat.succ_mul _ _
      omega
  · right; left
    have := pix_lex_le stride bpp we y0 x0 y x hp0 hsw (Or.inl hy)
    have hsm : (y0 * stride + x0 + 1) * bpp = (y0 * stride + x0) * bpp + bpp :=
      Nat.succ_mul _ _
    omega

theorem pixOffset_in_bounds (stride bpp he we : Nat) (hsw : we ≤ stride)
    (p : Nat × Nat) (hp1 : p.1 < he) (hp2 : p.2 < we) :
    pixOffset stride bpp p + bpp ≤ stride * he * bpp := by
  obtain ⟨y, x⟩ := p
  simp only [pixOffset] at hp1 hp2 ⊢
  have hsm : (y * stride + x + 1) * bpp = (y * stride + x) * bpp + bpp :=
    Nat.succ_mul _ _
  rw [← hsm]
  apply Nat.mul_le_mul _ (Nat.le_refl bpp)
  have h1 : (y + 1) * stride = y * stride + stride := by ring
  have h2 : (y + 1) * stride ≤ he * stride := Nat.mul_le_mul hp1 (Nat.le_refl stride)
  have h3 : he * stride = stride * he := Nat.mul_comm he stride
  omega

/-- **C2.** For every framebuffer descriptor with positive dimensions,
1–4 bytes per pixel, stride at least the width and a buffer at least
`stride*height*bpp` bytes long, a fill whose requested rectangle is at
least as large as the descriptor visits exactly
`min(height, req_h) * min(width, req_w)` pixels; every visited pixel's
byte span lies within the buffer; the buffer length is unchanged; the
first channel byte at every painted pixel's base offset
`(y*stride + x)*bpp` is 0xFF; and bytes outside every painted pixel's
span are untouched (no write outside the spans, which all lie within the
buffer). -/
theorem claim_C2 (info : FrameBufferInfo) (req_w req_h : Nat) (buf : List Nat)
    (hw : 1 ≤ info.width) (hh : 1 ≤ info.height)
    (hbpp1 : 1 ≤ info.bytes_per_pixel) (hbpp4 : info.bytes_per_pixel ≤ 4)
    (hsw : info.width ≤ info.stride)
    (hlen : info.stride * info.height * info.bytes_per_pixel ≤ buf.length)
    (hreqw : info.width ≤ req_w) (hreqh : info.height ≤ req_h) :
    (rectPixels (min info.height req_h) (min info.width req_w)).length
        = min info.height req_h * min info.width req_w ∧
    (∀ p ∈ rectPixels (min info.height req_h) (min info.width req_w),
      pixOffset info.stride info.bytes_per_pixel p + info.bytes_per_pixel
        ≤ buf.length) ∧
    (fill_rect info req_w req_h buf).length = buf.length ∧
    (∀ y x, y < info.height → x < info.width →
      (fill_rect info req_w req_h buf)[pixOffset info.stride
          info.bytes_per_pixel (y, x)]? = some 0xFF) ∧
    (∀ j, (∀ p ∈ rectPixels (min info.height req_h) (min info.width req_w),
        j < pixOffset info.stride info.bytes_per_pixel p ∨
          pixOffset info.stride info.bytes_per_pixel p
            + info.bytes_per_pixel ≤ j) →
      (fill_rect info req_w req_h buf)[j]? = buf[j]?) := by
  have hminh : min info.height req_h = info.height := Nat.min_eq_left hreqh
  have hminw : min info.width req_w = info.width := Nat.min_eq_left hreqw
  have hbounds : ∀ p ∈ rectPixels (min info.height req_h) (min info.width req_w),
      pixOffset info.stride info.bytes_per_pixel p + info.bytes_per_pixel
        ≤ buf.length := by
    intro p hp
    rw [mem_rectPixels, hminh, hminw] at hp
    exact Nat.le_trans
      (pixOffset_in_bounds info.stride info.bytes_per_pixel info.height
        info.width hsw p hp.1 hp.2) hlen
  refine ⟨length_rectPixels _ _, hbounds, ?_, ?_, ?_⟩
  · exact fillPixels_length _ _ _ buf
  · intro y x hy hx
    have hmem : (y, x) ∈ rectPixels (min info.height req_h) (min info.width req_w) := by
      rw [mem_rectPixels, hminh, hminw]
      exact ⟨hy, hx⟩
    apply fillPixels_paints info.bytes_per_pixel info.stride hbpp1 (y, x) _ buf
      hmem (hbounds (y, x) hmem)
    intro p hp
    have hp2 : p.2 < info.width := ((mem_rectPixels _ _ p).mp (by rwa [hminh, hminw] at hp)).2
    exact pixOffset_rect_cases info.stride info.bytes_per_pixel info.width
      hbpp1 hsw p (y, x) hp2 hx
  · intro j hdisj
    exact fillPixels_get_outside info.bytes_per_pixel info.stride hbpp1 _ buf j hdisj

theorem claim_C2_witness :
    (fill_rect ⟨50, 50, 4, 50⟩ 200 100 (List.replicate 10000 0)).length
        = (List.replicate (10000 : Nat) (0 : Nat)).length ∧
    (fill_rect ⟨50, 50, 4, 50⟩ 200 100
        (List.replicate 10000 0))[pixOffset 50 4 (49, 49)]? = some 0xFF :=
  ⟨(claim_C2 ⟨50, 50, 4, 50⟩ 200 100 (List.replicate 10000 0) (by decide)
      (by decide) (by decide) (by decide) (by decide)
      (by rw [List.length_replicate]; norm_num) (by decide) (by decide)).2.2.1,
   (claim_C2 ⟨50, 50, 4, 50⟩ 200 100 (List.replicate 10000 0) (by decide)
      (by decide) (by decide) (by decide) (by decide)
      (by rw [List.length_replicate]; norm_num) (by decide) (by decide)).2.2.2.1
     49 49 (by decide) (by decide)⟩

/-! ### Entry point dispatch and panic handler -/

/-- **C4.** When the boot information carries a framebuffer, `kernel_main`
takes the framebuffer branch: its event trace contains no Text-Mode Video
Driver invocation, and the VGA writer state is completely untouched — zero
writes reach the text-mode memory region during that boot. -/
theorem claim_C4 (boot : BootInfo) (w : Writer)
    (fb : FrameBufferInfo × List Nat)
    (hfb : boot.framebuffer = some fb) :
    (kernel_main boot w).1.countP Ev.isVga = 0 ∧
    (kernel_main boot w).2.1 = w := by
  cases boot with
  | mk f =>
    cases hfb
    obtain ⟨info, buf⟩ := fb
    exact ⟨rfl, rfl⟩

theorem claim_C4_witness :
    (kernel_main ⟨some (⟨50, 50, 4, 50⟩, List.replicate 100 0)⟩
        boot_writer).1.countP Ev.isVga = 0 ∧
    (kernel_main ⟨some (⟨50, 50, 4, 50⟩, List.replicate 100 0)⟩
        boot_writer).2.1 = boot_writer :=
  claim_C4 ⟨some (⟨50, 50, 4, 50⟩, List.replicate 100 0)⟩ boot_writer
    (⟨50, 50, 4, 50⟩, List.replicate 100 0) rfl

/-- **C8.** The panic handler first emits the fixed marker line "PANIC"
over the serial driver (the first seven transmitted bytes are the bytes
of "PANIC" followed by CR LF); when a human-readable message is
available it then emits that message as a second serial line; and it
emits nothing else before entering the non-returning halt loop (the
modelled output is exactly these lines). -/
theorem claim_C8 :
    (∀ m : List Nat,
      (panic_bytes (some m)).take 7 = ascii "PANIC" ++ [13, 10] ∧
      panic_bytes (some m) = println_bytes (ascii "PANIC") ++ println_bytes m) ∧
    panic_bytes none = println_bytes (ascii "PANIC") ∧
    (panic_bytes none).take 7 = ascii "PANIC" ++ [13, 10] := by
  have hp : println_bytes (ascii "PANIC") = ascii "PANIC" ++ [13, 10] := by
    decide
  refine ⟨?_, by decide, by decide⟩
  intro m
  constructor
  · show (println_bytes (ascii "PANIC") ++ println_bytes m).take 7 = _
    rw [hp, List.take_left' (by decide)]
  · rfl

end TMRos
